import Mathlib

/-!
Verification development for the AK backend storage engine
(`ak_backend_api.py`).  Python strings are modelled as lists of
characters (`Str`), the flat profile directory as an association list
from path strings to file contents (`FS`), and the external GPG
subprocess as an oracle with `enc`/`dec` functions.  Machine-level
I/O errors (disk failures) are outside the model; the engine's own
control flow, fallback logic and data formats are translated
line-by-line from the Python source.
-/

namespace AK

/-- A Python string: a sequence of Unicode code points. -/
abbrev Str := List Char

/-- The characters Python's `str.strip()` removes (Unicode whitespace,
per CPython's `str.isspace` table). -/
def pySpace (c : Char) : Bool :=
  let n := c.toNat
  (9 ≤ n && n ≤ 13) || (28 ≤ n && n ≤ 32) || n == 0x85 || n == 0xA0 ||
  n == 0x1680 || (0x2000 ≤ n && n ≤ 0x200A) || n == 0x2028 || n == 0x2029 ||
  n == 0x202F || n == 0x205F || n == 0x3000

/-- Python `s.strip()`: remove leading and trailing whitespace. -/
def pstrip (s : Str) : Str :=
  ((s.dropWhile pySpace).reverse.dropWhile pySpace).reverse

/-- Python `s.split(chr(10))`: split on every newline, keeping empty pieces
(the empty string splits to one empty piece). -/
def splitNl : Str → List Str
  | [] => [[]]
  | c :: rest =>
    if c = '\n' then [] :: splitNl rest
    else
      match splitNl rest with
      | [] => [[c]]
      | l :: ls => (c :: l) :: ls

/-- Python `sep.join` for a newline separator. -/
def joinNl : List Str → Str
  | [] => []
  | [l] => l
  | l :: ls => l ++ '\n' :: joinNl ls

/-- Python `line.split(chr(61), 1)` guarded by the `in` test: splits at the
first equals sign, or fails when the line has none. -/
def splitEq1 : Str → Option (Str × Str)
  | [] => none
  | c :: rest =>
    if c = '=' then some ([], rest)
    else (splitEq1 rest).map (fun p => (c :: p.1, p.2))

/-- Python dict assignment `d[k] = v` on an association list: overwrite in
place when the key is present, append otherwise. -/
def dinsert (k v : Str) : List (Str × Str) → List (Str × Str)
  | [] => [(k, v)]
  | p :: rest => if p.1 = k then (k, v) :: rest else p :: dinsert k v rest

/-- Python dict lookup `d[k]` / `k in d` on an association list. -/
def dlookup (k : Str) : List (Str × Str) → Option Str
  | [] => none
  | p :: rest => if p.1 = k then some p.2 else dlookup k rest

/-- Python `del d[k]`: remove the (unique) binding of `k`. -/
def dremove (k : Str) : List (Str × Str) → List (Str × Str)
  | [] => []
  | p :: rest => if p.1 = k then rest else p :: dremove k rest

/-- Lexicographic strict order on strings, as Python compares them
(code point by code point). -/
def strLt : Str → Str → Bool
  | _, [] => false
  | [], _ :: _ => true
  | a :: as_, b :: bs =>
    if a < b then true else if b < a then false else strLt as_ bs

/-- Python `<=` on strings. -/
def strLe (s t : Str) : Bool := !strLt t s

/-- Python `<=` on `(key, value)` tuples, used by `sorted(d.items())`. -/
def pairLe (p q : Str × Str) : Bool :=
  if strLt p.1 q.1 then true else if strLt q.1 p.1 then false
  else strLe p.2 q.2

/-- Stable insertion into a `pairLe`-sorted list. -/
def insertPair (p : Str × Str) : List (Str × Str) → List (Str × Str)
  | [] => [p]
  | q :: rest => if pairLe p q then p :: q :: rest else q :: insertPair p rest

/-- Python `sorted(d.items())`: a stable sort by the tuple order (any stable
sort by this total preorder computes the same function as CPython's sort). -/
def sortPairs : List (Str × Str) → List (Str × Str)
  | [] => []
  | p :: rest => insertPair p (sortPairs rest)

/-- The base64 alphabet used by `base64.b64encode`. -/
def b64Alphabet : Str :=
  "ABCDEFGHIJKLMNOPQRSTUVWXYZabcdefghijklmnopqrstuvwxyz0123456789+/".data

/-- Index of a character in a string, if present. -/
def idxOf? (c : Char) : Str → Option Nat
  | [] => none
  | a :: rest => if a = c then some 0 else (idxOf? c rest).map (· + 1)

/-- The base64 digit for a 6-bit value. -/
def sixBitChar (n : Nat) : Char := b64Alphabet.getD n 'A'

/-- The 6-bit value of a base64 digit, if it is one. -/
def charSixBit (c : Char) : Option Nat := idxOf? c b64Alphabet

/-- `base64.b64encode` on a byte sequence (bytes as naturals below 256). -/
def b64encode : List Nat → Str
  | a :: b :: c :: rest =>
    sixBitChar (a / 4) :: sixBitChar (a % 4 * 16 + b / 16) ::
    sixBitChar (b % 16 * 4 + c / 64) :: sixBitChar (c % 64) :: b64encode rest
  | [a, b] => [sixBitChar (a / 4), sixBitChar (a % 4 * 16 + b / 16),
               sixBitChar (b % 16 * 4), '=']
  | [a] => [sixBitChar (a / 4), sixBitChar (a % 4 * 16), '=', '=']
  | [] => []

/-- The decoding loop of CPython's `binascii.a2b_base64` in non-strict mode
(what `base64.b64decode` runs): characters outside the alphabet are
discarded, a padding character only counts at quad positions 2 and 3, a
quad completed by padding ends decoding successfully, and input ending at
a nonzero quad position is an error (`none`). -/
def b64decodeAux : List Char → Nat → Nat → Nat → List Nat → Option (List Nat)
  | [], quadPos, _, _, acc =>
    if quadPos = 0 then some acc.reverse else none
  | c :: rest, quadPos, leftchar, pads, acc =>
    if c = '=' then
      if 2 ≤ quadPos then
        if 4 ≤ quadPos + (pads + 1) then some acc.reverse
        else b64decodeAux rest quadPos leftchar (pads + 1) acc
      else b64decodeAux rest quadPos leftchar pads acc
    else
      match charSixBit c with
      | none => b64decodeAux rest quadPos leftchar pads acc
      | some x =>
        match quadPos with
        | 0 => b64decodeAux rest 1 x 0 acc
        | 1 => b64decodeAux rest 2 (x % 16) 0 ((leftchar * 4 + x / 16) :: acc)
        | 2 => b64decodeAux rest 3 (x % 4) 0 ((leftchar * 16 + x / 4) :: acc)
        | _ => b64decodeAux rest 0 0 0 ((leftchar * 64 + x) :: acc)

/-- `base64.b64decode`; `none` models the `binascii.Error` the Python
caller catches. -/
def b64decode (cs : Str) : Option (List Nat) := b64decodeAux cs 0 0 0 []

/-- UTF-8 encoding of one code point (`str.encode` on one character). -/
def utf8EncodeChar (c : Char) : List Nat :=
  let n := c.toNat
  if n < 128 then [n]
  else if n < 2048 then [192 + n / 64, 128 + n % 64]
  else if n < 65536 then [224 + n / 4096, 128 + n / 64 % 64, 128 + n % 64]
  else [240 + n / 262144, 128 + n / 4096 % 64, 128 + n / 64 % 64, 128 + n % 64]

/-- `value.encode("utf-8")`: UTF-8 bytes of a string. -/
def utf8Encode (s : Str) : List Nat :=
  s.foldr (fun c acc => utf8EncodeChar c ++ acc) []

/-- `bytes.decode("utf-8")`: strict UTF-8 decoding; continuation-byte,
overlong, surrogate and range violations yield `none` (Python raises
a decode error, which the caller catches). -/
def utf8DecodeAux : Nat → List Nat → Option Str
  | _, [] => some []
  | 0, _ :: _ => none
  | fuel + 1, b0 :: rest =>
    if b0 < 128 then
      (utf8DecodeAux fuel rest).map (fun s => Char.ofNat b0 :: s)
    else if b0 < 194 then none
    else if b0 < 224 then
      if 1 ≤ rest.length then
        let b1 := rest.headD 0
        if 128 ≤ b1 ∧ b1 < 192 then
          (utf8DecodeAux fuel rest.tail).map
            (fun s => Char.ofNat ((b0 - 192) * 64 + (b1 - 128)) :: s)
        else none
      else none
    else if b0 < 240 then
      if 2 ≤ rest.length then
        let b1 := rest.headD 0
        let b2 := rest.tail.headD 0
        let v := (b0 - 224) * 4096 + (b1 - 128) * 64 + (b2 - 128)
        if (128 ≤ b1 ∧ b1 < 192) ∧ (128 ≤ b2 ∧ b2 < 192) ∧ 2048 ≤ v ∧
           (v < 55296 ∨ 57344 ≤ v) then
          (utf8DecodeAux fuel rest.tail.tail).map (fun s => Char.ofNat v :: s)
        else none
      else none
    else if b0 < 245 then
      if 3 ≤ rest.length then
        let b1 := rest.headD 0
        let b2 := rest.tail.headD 0
        let b3 := rest.tail.tail.headD 0
        let v := (b0 - 240) * 262144 + (b1 - 128) * 4096 +
                 (b2 - 128) * 64 + (b3 - 128)
        if (128 ≤ b1 ∧ b1 < 192) ∧ (128 ≤ b2 ∧ b2 < 192) ∧
           (128 ≤ b3 ∧ b3 < 192) ∧ 65536 ≤ v ∧ v < 1114112 then
          (utf8DecodeAux fuel rest.tail.tail.tail).map
            (fun s => Char.ofNat v :: s)
        else none
      else none
    else none

/-- `bytes.decode("utf-8")` proper: the fuel starts at the byte count and
each decoded character consumes one unit while consuming at least one
byte, so the fuel never runs out on the way to the end of the input. -/
def utf8Decode (l : List Nat) : Option Str := utf8DecodeAux l.length l

/-- The contents-encoding from `save_profile_keys`: one `KEY=BASE64(VALUE)`
line per entry, sorted, newline-terminated, empty mapping to empty text. -/
def encode_contents (m : List (Str × Str)) : Str :=
  let lines := (sortPairs m).map
    (fun kv => kv.1 ++ '=' :: b64encode (utf8Encode kv.2))
  match lines with
  | [] => []
  | _ => joinNl lines ++ ['\n']

/-- One iteration of the parsing loop in `load_profile_keys`: strip the
line, skip blanks and comment lines, split at the first equals sign and
base64/UTF-8-decode the value; any failure skips the line. -/
def parseLine (line : Str) : Option (Str × Str) :=
  let l := pstrip line
  if l = [] then none
  else if l.head? = some '#' then none
  else
    match splitEq1 l with
    | none => none
    | some (k, ev) =>
      match b64decode ev with
      | none => none
      | some bytes =>
        match utf8Decode bytes with
        | none => none
        | some v => some (k, v)

/-- The contents-decoding from `load_profile_keys`: strip the blob, split
into lines, and fold successfully parsed `KEY=BASE64` lines into a dict. -/
def decode_contents (data : Str) : List (Str × Str) :=
  (splitNl (pstrip data)).foldl
    (fun acc line =>
      match parseLine line with
      | some kv => dinsert kv.1 kv.2 acc
      | none => acc) []

/-- A key name the contents format represents faithfully: no equals sign,
no newline, and a first character that is neither the comment marker nor
stripped whitespace. -/
def safeKey (k : Str) : Bool :=
  !k.contains '=' && !k.contains '\n' &&
  (match k with
   | [] => true
   | c :: _ => !(c = '#' : Bool) && !pySpace c)

/-- A name the name-list format represents faithfully: nonempty, no
newline, no carriage return (text-mode reads translate those), and
unchanged by stripping. -/
def goodName (k : Str) : Bool :=
  !k.isEmpty && !k.contains '\n' && !k.contains '\r' && (pstrip k == k)

/-- The profiles directory modelled as a flat table from path strings to
file contents; `os.path.exists` is membership, reads and writes are
lookups and updates by full path. -/
abbrev FS := List (Str × Str)

/-- Read a file's contents, if the path exists. -/
def fsRead (fs : FS) (p : Str) : Option Str := dlookup p fs

/-- `open(p, "w")` followed by a full write: create or overwrite. -/
def fsWrite (p c : Str) (fs : FS) : FS := dinsert p c fs

/-- `os.path.exists`. -/
def fsExists (fs : FS) (p : Str) : Bool := (dlookup p fs).isSome

/-- `os.unlink` guarded by `os.path.exists`: drop the path if present. -/
def fsUnlink (p : Str) (fs : FS) : FS := fs.filter (fun e => !(e.1 == p))

/-- `os.path.join` for a single nonempty component: an absolute component
replaces the base, otherwise a separator is inserted unless the base ends
with one or is empty. -/
def pjoin (a b : Str) : Str :=
  if b.head? = some '/' then b
  else if a = [] then b
  else if a.getLast? = some '/' then a ++ b
  else a ++ '/' :: b

/-- `profile_path`: path of the name-list file for a profile. -/
def profile_path (dir name : Str) : Str :=
  pjoin dir (name ++ ".profile".data)

/-- `profile_keys_path`: path of the encrypted contents file. -/
def profile_keys_path (dir name : Str) : Str :=
  pjoin dir (name ++ ".keys.gpg".data)

/-- `profile_keys_plain_path`: path of the plaintext contents file. -/
def profile_keys_plain_path (dir name : Str) : Str :=
  pjoin dir (name ++ ".keys".data)

/-- Strip a leading string from another, if it is there. -/
def dropPre : Str → Str → Option Str
  | [], s => some s
  | _ :: _, [] => none
  | a :: as_, b :: bs => if a = b then dropPre as_ bs else none

/-- Python `s.endswith(t)`. -/
def endsWith (s t : Str) : Bool :=
  decide (t.length ≤ s.length) && (s.drop (s.length - t.length) == t)

/-- `os.listdir` on the flat model: the filenames directly under `dir`. -/
def listdir (dir : Str) (fs : FS) : List Str :=
  fs.filterMap (fun e =>
    match dropPre (dir ++ ['/']) e.1 with
    | some fn => if !fn.isEmpty && !fn.contains '/' then some fn else none
    | none => none)

/-- Stable insertion into a `strLe`-sorted list of strings. -/
def insertStr (x : Str) : List Str → List Str
  | [] => [x]
  | y :: rest => if strLe x y then x :: y :: rest else y :: insertStr x rest

/-- Python `sorted` on a list of strings. -/
def sortStrs (l : List Str) : List Str := l.foldr insertStr []

/-- `list_profiles`: names of the `.profile` files in the directory,
sorted. -/
def list_profiles (dir : Str) (fs : FS) : List Str :=
  sortStrs ((listdir dir fs).filterMap fun fn =>
    if endsWith fn ".profile".data then some (fn.take (fn.length - 8))
    else none)

/-- The universal-newlines translation Python applies when reading a file
in text mode: a carriage return, alone or followed by a line feed, reads
as a single line feed.  The flag records whether the previous character
was a carriage return, whose following line feed is swallowed. -/
def unlAux : Bool → Str → Str
  | _, [] => []
  | prevCR, c :: rest =>
    if c = '\r' then '\n' :: unlAux true rest
    else if c = '\n' then
      if prevCR then unlAux false rest
      else '\n' :: unlAux false rest
    else c :: unlAux false rest

/-- What `open(path, "r")` followed by `read` yields for stored bytes
that decode to `s`. -/
def unl (s : Str) : Str := unlAux false s

/-- `read_profile`: the stored name list read in text mode (universal
newlines), one stripped nonempty line per name; a missing file reads as
the empty list. -/
def read_profile (dir : Str) (fs : FS) (name : Str) : List Str :=
  match fsRead fs (profile_path dir name) with
  | none => []
  | some content =>
    ((splitNl (unl content)).map pstrip).filter (fun l => !l.isEmpty)

/-- Sorted insertion that drops duplicates: the effect of
`sorted(list(set(keys)))`. -/
def insertName (k : Str) : List Str → List Str
  | [] => [k]
  | x :: rest =>
    if strLt k x then k :: x :: rest
    else if strLt x k then x :: insertName k rest
    else x :: rest

/-- Python `sorted(list(set(keys)))`: the sorted duplicate-free list. -/
def dedupSort (l : List Str) : List Str := l.foldr insertName []

/-- `write_profile`: deduplicate and sort the names, then overwrite the
name-list file with one name per line. -/
def write_profile (dir : Str) (fs : FS) (name : Str) (keys : List Str) : FS :=
  fsWrite (profile_path dir name)
    ((dedupSort keys).foldr (fun k acc => k ++ '\n' :: acc) []) fs

/-- ASCII lowering, the part of Python `str.lower()` the disable-flag
comparison can observe. -/
def pyLower (s : Str) : Str := s.map Char.toLower

/-- The truthiness test `os.getenv("AK_DISABLE_GPG", "").lower() in
("1", "true", "yes")`. -/
def truthyDisable (v : Str) : Bool :=
  pyLower v == "1".data || pyLower v == "true".data || pyLower v == "yes".data

/-- The configuration state built by `AKConfig.__init__`: the probe result
and the environment flags (directories and passphrase are fixed outside
this model). -/
structure AKConfig where
  gpg_available : Bool
  force_plain : Bool

/-- `AKConfig.__init__`: `gpg_available` is the result of the
`gpg --version` subprocess probe, taken as a parameter here;
`force_plain` is the truthiness of the `AK_DISABLE_GPG` variable. -/
def AKConfig.init (probe : Bool) (disableEnv : Option Str) : AKConfig :=
  { gpg_available := probe,
    force_plain := truthyDisable (disableEnv.getD []) }

/-- The external GPG subprocess, as a deterministic oracle: `enc` maps a
plaintext blob to the ciphertext it would write (or `none` on tool
failure), `dec` maps a ciphertext file's contents to the decrypted text
(or `none` on failure). -/
structure Oracle where
  enc : Str → Option Str
  dec : Str → Option Str

/-- `decrypt_gpg_data`: `None` when GPG is unavailable or force-disabled,
otherwise the oracle's decryption of the file's contents (a missing file
makes the subprocess fail). -/
def decrypt_gpg_data (c : AKConfig) (o : Oracle) (fs : FS) (path : Str) :
    Option Str :=
  if !c.gpg_available || c.force_plain then none
  else
    match fsRead fs path with
    | some content => o.dec content
    | none => none

/-- `encrypt_gpg_data`: `false` when GPG is unavailable or force-disabled;
on oracle success the ciphertext is written to `path` and the call
returns `true`; on failure nothing is written. -/
def encrypt_gpg_data (c : AKConfig) (o : Oracle) (data path : Str)
    (fs : FS) : FS × Bool :=
  if !c.gpg_available || c.force_plain then (fs, false)
  else
    match o.enc data with
    | some ct => (fsWrite path ct fs, true)
    | none => (fs, false)

/-- Python truthiness of the optional decrypted/read text: `None` and the
empty string are both falsy. -/
def pyTruthy : Option Str → Bool
  | none => false
  | some s => !s.isEmpty

/-- `load_profile_keys`: try the encrypted file, fall back to the
plaintext file when that yields no (truthy) data, parse whatever text was
obtained, and return the empty mapping when there is none. -/
def load_profile_keys (dir : Str) (c : AKConfig) (o : Oracle) (fs : FS)
    (name : Str) : List (Str × Str) :=
  let encp := profile_keys_path dir name
  let plainp := profile_keys_plain_path dir name
  let data0 := if fsExists fs encp then decrypt_gpg_data c o fs encp else none
  let data1 :=
    if !pyTruthy data0 then
      match fsRead fs plainp with
      | some ct => some ct
      | none => data0
    else data0
  match data1 with
  | none => []
  | some d => if d.isEmpty then [] else decode_contents d

/-- `save_profile_keys`: encode the mapping, try to encrypt it to the
encrypted path, and only on encryption failure write the plaintext file. -/
def save_profile_keys (dir : Str) (c : AKConfig) (o : Oracle) (fs : FS)
    (name : Str) (keys : List (Str × Str)) : FS × Bool :=
  let data := encode_contents keys
  let r := encrypt_gpg_data c o data (profile_keys_path dir name) fs
  if r.2 then (r.1, true)
  else (fsWrite (profile_keys_plain_path dir name) data r.1, true)

/-- `ensure_default_profile`: create an empty default name list when no
profile named default is listed. -/
def ensure_default_profile (dir : Str) (fs : FS) : FS :=
  if "default".data ∈ list_profiles dir fs then fs
  else write_profile dir fs "default".data []

/-- The `create_profile` handler's engine logic: 409 when the name is
already listed, otherwise write an empty name list. -/
def create_profile (dir : Str) (fs : FS) (name : Str) : FS × Nat :=
  if name ∈ list_profiles dir fs then (fs, 409)
  else (write_profile dir fs name [], 200)

/-- The `delete_profile` handler's engine logic: 400 for the name
default, otherwise unlink the three artifact paths. -/
def delete_profile (dir : Str) (fs : FS) (name : Str) : FS × Nat :=
  if name = "default".data then (fs, 400)
  else
    (fsUnlink (profile_keys_plain_path dir name)
      (fsUnlink (profile_keys_path dir name)
        (fsUnlink (profile_path dir name) fs)), 200)

/-- The `delete_profile_key` handler's engine logic: 404 when the key is
not in the loaded mapping; otherwise remove it, save, and drop it from
the name list when present. -/
def delete_profile_key (dir : Str) (c : AKConfig) (o : Oracle) (fs : FS)
    (name key : Str) : FS × Nat :=
  let keys := load_profile_keys dir c o fs name
  if (dlookup key keys).isSome then
    let r := save_profile_keys dir c o fs name (dremove key keys)
    if r.2 then
      let pk := read_profile dir r.1 name
      let fs2 := if key ∈ pk then write_profile dir r.1 name (pk.erase key)
                 else r.1
      (fs2, 200)
    else (r.1, 500)
  else (fs, 404)

/-- Modelled from the spec's resolution order, amended for the observed
empty-text behaviour: the text `load_profile_keys` ends up decoding —
the decryption output when the encrypted artifact exists and decrypts to
nonempty text, else the plaintext file's contents, else nothing. -/
def load_resolution_spec (dir : Str) (c : AKConfig) (o : Oracle) (fs : FS)
    (name : Str) : Str :=
  let encText :=
    match (if fsExists fs (profile_keys_path dir name) then
             decrypt_gpg_data c o fs (profile_keys_path dir name)
           else none) with
    | some d => d
    | none => []
  if !encText.isEmpty then encText
  else
    match fsRead fs (profile_keys_plain_path dir name) with
    | some ct => ct
    | none => []

/-! ## Helper lemmas -/

theorem dlookup_dinsert (k k' v : Str) (l : List (Str × Str)) :
    dlookup k (dinsert k' v l) = if k' = k then some v else dlookup k l := by
  induction l with
  | nil => simp [dinsert, dlookup]
  | cons p rest ih =>
    by_cases h1 : p.1 = k'
    · by_cases h2 : k' = k <;> simp [dinsert, dlookup, h1, h2]
    · simp only [dinsert, if_neg h1, dlookup]
      by_cases h2 : p.1 = k
      · have : ¬(k' = k) := fun he => h1 (h2.trans he.symm)
        simp [h2, this]
      · simp [h2, ih]

theorem dinsert_dinsert_same (k v : Str) (l : List (Str × Str)) :
    dinsert k v (dinsert k v l) = dinsert k v l := by
  induction l with
  | nil => simp [dinsert]
  | cons p rest ih =>
    by_cases h : p.1 = k
    · simp [dinsert, h]
    · simp [dinsert, h, ih]

theorem pjoin_append_ne (a n s1 s2 : Str)
    (hh : (n ++ s1).head? = (n ++ s2).head?)
    (hl : s1.length ≠ s2.length) :
    pjoin a (n ++ s1) ≠ pjoin a (n ++ s2) := by
  unfold pjoin
  rw [hh]
  split_ifs with h1 h2 h3 <;>
  · intro h
    have hlen := congrArg List.length h
    simp only [List.length_append, List.length_cons] at hlen
    omega

theorem keys_path_ne_plain (dir name : Str) :
    profile_keys_path dir name ≠ profile_keys_plain_path dir name := by
  unfold profile_keys_path profile_keys_plain_path
  exact pjoin_append_ne dir name _ _ (by cases name <;> rfl) (by decide)

/-! ## C4: the delete-default guard -/

/-- C4 (counterexample): the claim that no sequence of engine operations
can delete the default profile is false: `delete_profile` guards by name
string only, so the non-default name `/p/default` resolves (through
`os.path.join`'s absolute-path rule) to the default profile's own
artifact paths, returns 200, and removes the default profile. -/
theorem delete_default_by_alias :
    let dir := "/p".data
    let fs : FS := [("/p/default.profile".data, [])]
    "/p/default".data ≠ "default".data ∧
    "default".data ∈ list_profiles dir fs ∧
    (delete_profile dir fs "/p/default".data).2 = 200 ∧
    "default".data ∉ list_profiles dir (delete_profile dir fs "/p/default".data).1 := by
  refine ⟨by decide, by decide, by decide, by decide⟩

/-- C4 (amended): deleting the profile named `default` always signals 400
and leaves the file system completely unchanged; the guard, however, is by
name string only, so operations invoked with a different name whose
resolved paths alias the default profile's artifacts can still remove
them. -/
theorem delete_profile_default_guard (dir : Str) (fs : FS) :
    delete_profile dir fs "default".data = (fs, 400) := by
  simp [delete_profile]

/-! ## C6: deleting a missing key -/

/-- C6: when the key is absent from the profile's loaded mapping,
`delete_profile_key` signals 404 and returns the file system unchanged, so
the contents artifact and the name list are untouched. -/
theorem delete_missing_key_is_404 (dir : Str) (c : AKConfig) (o : Oracle)
    (fs : FS) (name key : Str)
    (h : dlookup key (load_profile_keys dir c o fs name) = none) :
    delete_profile_key dir c o fs name key = (fs, 404) := by
  unfold delete_profile_key
  simp [h]

/-- C6 (witness): a concrete instance of the 404 guard on an empty store. -/
theorem delete_missing_key_is_404_witness :
    delete_profile_key "/p".data ⟨true, false⟩ ⟨fun _ => none, fun _ => none⟩
      [] "x".data "NOPE".data = ([], 404) :=
  delete_missing_key_is_404 "/p".data ⟨true, false⟩
    ⟨fun _ => none, fun _ => none⟩ [] "x".data "NOPE".data (by decide)

/-! ## C5: the frame property of an encrypting save -/

/-- C5: when the encryption step succeeds, `save_profile_keys` writes only
the encrypted contents file: every other path — in particular the
plaintext contents file — reads exactly as before the call. -/
theorem save_encrypting_frame (dir : Str) (c : AKConfig) (o : Oracle)
    (fs : FS) (name : Str) (keys : List (Str × Str)) (ct : Str)
    (hg : c.gpg_available = true) (hf : c.force_plain = false)
    (he : o.enc (encode_contents keys) = some ct) :
    save_profile_keys dir c o fs name keys
      = (fsWrite (profile_keys_path dir name) ct fs, true) ∧
    (∀ p, p ≠ profile_keys_path dir name →
      fsRead (save_profile_keys dir c o fs name keys).1 p = fsRead fs p) ∧
    fsRead (save_profile_keys dir c o fs name keys).1
        (profile_keys_plain_path dir name)
      = fsRead fs (profile_keys_plain_path dir name) := by
  have hsave : save_profile_keys dir c o fs name keys
      = (fsWrite (profile_keys_path dir name) ct fs, true) := by
    unfold save_profile_keys encrypt_gpg_data
    simp [hg, hf, he]
  refine ⟨hsave, ?_, ?_⟩
  · intro p hp
    rw [hsave]
    show dlookup p (dinsert (profile_keys_path dir name) ct fs) = dlookup p fs
    rw [dlookup_dinsert]
    exact if_neg (fun h => hp h.symm)
  · rw [hsave]
    show dlookup _ (dinsert (profile_keys_path dir name) ct fs) = dlookup _ fs
    rw [dlookup_dinsert]
    exact if_neg (keys_path_ne_plain dir name)

/-- C5 (witness): a concrete encrypting save leaves a pre-existing
plaintext file exactly as it was. -/
theorem save_encrypting_frame_witness :
    fsRead ((save_profile_keys "/p".data ⟨true, false⟩
        ⟨fun _ => some "CT".data, fun _ => none⟩
        [("/p/x.keys".data, "OLD".data)] "x".data []).1)
      (profile_keys_plain_path "/p".data "x".data)
      = fsRead [("/p/x.keys".data, "OLD".data)]
          (profile_keys_plain_path "/p".data "x".data) :=
  (save_encrypting_frame "/p".data ⟨true, false⟩
    ⟨fun _ => some "CT".data, fun _ => none⟩
    [("/p/x.keys".data, "OLD".data)] "x".data [] "CT".data
    rfl rfl rfl).2.2

/-! ## C3: the disable flag and the availability flag -/

/-- C3 (counterexample): with `AK_DISABLE_GPG` set to the truthy value 1
and the version probe succeeding, `AKConfig.__init__` still sets
`gpg_available` true — the flag reported by the health probe is the raw
probe result, not forced false by the disable variable. -/
theorem disable_flag_does_not_clear_available :
    truthyDisable "1".data = true ∧
    (AKConfig.init true (some "1".data)).gpg_available = true := by
  exact ⟨by decide, rfl⟩

/-- C3 (amended): a truthy `AK_DISABLE_GPG` sets `force_plain`, which
makes the encryption backend behave as unavailable (decryption yields
nothing and encryption fails without writing), but `gpg_available` itself
still carries the probe's result — the probe is still consulted and its
raw value is what the health endpoint reports. -/
theorem disable_flag_forces_plain (probe : Bool) (v : Str)
    (hv : truthyDisable v = true) :
    (AKConfig.init probe (some v)).force_plain = true ∧
    (AKConfig.init probe (some v)).gpg_available = probe ∧
    (∀ o fs path, decrypt_gpg_data (AKConfig.init probe (some v)) o fs path
      = none) ∧
    (∀ o data path fs,
      encrypt_gpg_data (AKConfig.init probe (some v)) o data path fs
      = (fs, false)) := by
  have hfp : (AKConfig.init probe (some v)).force_plain = true := by
    simp [AKConfig.init, hv]
  refine ⟨hfp, rfl, ?_, ?_⟩
  · intro o fs path
    unfold decrypt_gpg_data
    simp [hfp]
  · intro o data path fs
    unfold encrypt_gpg_data
    simp [hfp]

/-- C3 (witness): the amended statement at the concrete environment value
1 with a succeeding probe. -/
theorem disable_flag_forces_plain_witness :
    (AKConfig.init true (some "1".data)).force_plain = true ∧
    (AKConfig.init true (some "1".data)).gpg_available = true ∧
    (∀ o fs path, decrypt_gpg_data (AKConfig.init true (some "1".data)) o fs path
      = none) ∧
    (∀ o data path fs,
      encrypt_gpg_data (AKConfig.init true (some "1".data)) o data path fs
      = (fs, false)) :=
  disable_flag_forces_plain true "1".data (by decide)

/-! ## C2: the load resolution order -/

/-- C2 (counterexample): a decryption that succeeds with empty output is
not authoritative: with the encrypted artifact present and decrypting
successfully to the empty string, `load_profile_keys` still falls through
to the plaintext file and returns its mapping instead of the decrypted
(empty) one. -/
theorem successful_empty_decrypt_falls_through :
    let dir := "/p".data
    let c : AKConfig := ⟨true, false⟩
    let o : Oracle := ⟨fun _ => none, fun _ => some []⟩
    let fs : FS := [("/p/x.keys.gpg".data, "CIPHER".data),
                    ("/p/x.keys".data, "A=dg==\n".data)]
    fsExists fs (profile_keys_path dir "x".data) = true ∧
    decrypt_gpg_data c o fs (profile_keys_path dir "x".data) = some [] ∧
    load_profile_keys dir c o fs "x".data = [("A".data, "v".data)] ∧
    decode_contents [] = [] :=
  ⟨by decide, by decide, by decide, by decide⟩

/-- C2 (amended): `load_profile_keys` decodes exactly the text selected by
the resolution order in which a successful decryption is authoritative
only when its output is nonempty: an encrypted artifact that is absent,
fails to decrypt, or decrypts to empty text falls through to the
plaintext file, and with no source at all the result is the empty
mapping. -/
theorem load_matches_resolution (dir : Str) (c : AKConfig) (o : Oracle)
    (fs : FS) (name : Str) :
    load_profile_keys dir c o fs name
      = decode_contents (load_resolution_spec dir c o fs name) := by
  simp only [load_profile_keys, load_resolution_spec]
  cases h0 : (if fsExists fs (profile_keys_path dir name) then
      decrypt_gpg_data c o fs (profile_keys_path dir name) else none) with
  | none =>
    simp only [pyTruthy, Bool.not_false]
    cases h1 : fsRead fs (profile_keys_plain_path dir name) with
    | none => rfl
    | some ct =>
      simp only [List.isEmpty_eq_true, if_true]
      by_cases hct : ct = []
      · subst hct; rfl
      · simp [hct]
  | some d =>
    by_cases hd : d = []
    · subst hd
      simp only [pyTruthy, List.isEmpty_nil, Bool.not_true, Bool.not_false]
      cases h1 : fsRead fs (profile_keys_plain_path dir name) with
      | none => rfl
      | some ct =>
        by_cases hct : ct = []
        · subst hct; rfl
        · simp [hct]
    · have hne : d.isEmpty = false := by
        cases d with
        | nil => exact absurd rfl hd
        | cons a l => rfl
      simp [pyTruthy, hne]

/-! ## C7: idempotence of ensure_default_profile -/

/-- C7: `ensure_default_profile` is idempotent — a second run returns the
state of the first unchanged — and it creates the empty default name list
exactly when no profile named default is listed. -/
theorem ensure_default_profile_idem (dir : Str) (fs : FS) :
    ensure_default_profile dir (ensure_default_profile dir fs)
      = ensure_default_profile dir fs ∧
    ("default".data ∈ list_profiles dir fs →
      ensure_default_profile dir fs = fs) ∧
    ("default".data ∉ list_profiles dir fs →
      ensure_default_profile dir fs
        = write_profile dir fs "default".data []) := by
  refine ⟨?_, ?_, ?_⟩
  · by_cases h : "default".data ∈ list_profiles dir fs
    · simp [ensure_default_profile, h]
    · simp only [ensure_default_profile, if_neg h]
      by_cases h2 : "default".data ∈
          list_profiles dir (write_profile dir fs "default".data [])
      · simp [ensure_default_profile, h2]
      · simp only [ensure_default_profile, if_neg h2]
        unfold write_profile fsWrite
        exact dinsert_dinsert_same _ _ _
  · intro h; simp [ensure_default_profile, h]
  · intro h; simp [ensure_default_profile, h]

/-- C7 (witness): on an empty store the default profile is absent, the
first run creates it, and the second run changes nothing. -/
theorem ensure_default_profile_idem_witness :
    ensure_default_profile "/p".data (ensure_default_profile "/p".data [])
      = ensure_default_profile "/p".data [] ∧
    "default".data ∉ list_profiles "/p".data ([] : FS) ∧
    ensure_default_profile "/p".data []
      = write_profile "/p".data [] "default".data [] :=
  ⟨(ensure_default_profile_idem "/p".data []).1, by decide,
   (ensure_default_profile_idem "/p".data []).2.2 (by decide)⟩

/-! ## C9: profile names used in paths without sanitization -/

theorem mem_insertStr {a x : Str} {l : List Str} :
    a ∈ insertStr x l → a = x ∨ a ∈ l := by
  induction l with
  | nil => intro h; simp [insertStr] at h; exact Or.inl h
  | cons y rest ih =>
    intro h
    simp only [insertStr] at h
    split_ifs at h with hc
    · rw [List.mem_cons] at h
      exact h.imp id id
    · rw [List.mem_cons] at h
      rcases h with h | h
      · exact Or.inr (List.mem_cons.2 (Or.inl h))
      · rcases ih h with h' | h'
        · exact Or.inl h'
        · exact Or.inr (List.mem_cons.2 (Or.inr h'))

theorem mem_sortStrs {a : Str} {l : List Str} :
    a ∈ sortStrs l → a ∈ l := by
  induction l with
  | nil => intro h; simp [sortStrs] at h
  | cons x rest ih =>
    intro h
    rcases mem_insertStr h with h' | h'
    · simp [h']
    · simp [ih h']

theorem mem_listdir_no_slash (dir : Str) (fs : FS) (fn : Str)
    (h : fn ∈ listdir dir fs) : '/' ∉ fn := by
  unfold listdir at h
  rw [List.mem_filterMap] at h
  obtain ⟨e, _, he⟩ := h
  cases hdp : dropPre (dir ++ ['/']) e.1 with
  | none => rw [hdp] at he; exact absurd he (by simp)
  | some fn' =>
    rw [hdp] at he
    simp only [] at he
    by_cases hc : (!fn'.isEmpty && !fn'.contains '/') = true
    · rw [if_pos hc] at he
      have hfe : fn' = fn := Option.some.inj he
      subst hfe
      intro hmem
      simp only [Bool.and_eq_true, Bool.not_eq_true'] at hc
      simp [hmem] at hc
    · rw [if_neg hc] at he; exact absurd he (by simp)

theorem no_slash_in_list_profiles (dir : Str) (fs : FS) (s : Str)
    (h : s ∈ list_profiles dir fs) : '/' ∉ s := by
  intro hs
  have h1 := mem_sortStrs h
  rw [List.mem_filterMap] at h1
  obtain ⟨fn, hfn, hif⟩ := h1
  have h2 : s = fn.take (fn.length - 8) := by
    by_cases hew : endsWith fn ".profile".data = true
    · rw [if_pos hew] at hif; exact (Option.some.inj hif).symm
    · rw [if_neg hew] at hif; exact absurd hif (by simp)
  exact mem_listdir_no_slash dir fs fn hfn (List.take_subset _ _ (h2 ▸ hs))

/-- C9 (counterexample): `profile_path` is not always the concatenation of
the profiles directory, the name and the suffix: a name beginning with a
path separator makes `os.path.join` discard the directory entirely, so
the resolved path is the attacker-chosen absolute path itself. -/
theorem profile_path_absolute_name :
    profile_path "/p".data "/e/x".data = "/e/x.profile".data ∧
    profile_path "/p".data "/e/x".data
      ≠ "/p".data ++ '/' :: ("/e/x".data ++ ".profile".data) ∧
    profile_path "/p".data "/e/x".data
      ≠ "/p".data ++ "/e/x".data ++ ".profile".data :=
  ⟨by decide, by decide, by decide⟩

/-- C9 (amended): for every name not beginning with a separator —
including names containing `/` or `..` — `profile_path` is exactly the
directory, a separator, the name and the `.profile` suffix, with no
validation or sanitization; and `create_profile` accepts any unlisted
name, in particular every name containing a separator. Names beginning
with a separator instead replace the directory wholesale. -/
theorem profile_path_no_sanitization (dir name : Str)
    (hn : name.head? ≠ some '/') (hd : dir ≠ [])
    (hl : dir.getLast? ≠ some '/') :
    profile_path dir name = dir ++ '/' :: (name ++ ".profile".data) ∧
    ∀ fs, '/' ∈ name → (create_profile dir fs name).2 = 200 := by
  constructor
  · unfold profile_path pjoin
    have h1 : ¬ (name ++ ".profile".data).head? = some '/' := by
      cases name with
      | nil => decide
      | cons c cs => simpa using hn
    rw [if_neg h1, if_neg hd, if_neg hl]
  · intro fs hslash
    have hnm : name ∉ list_profiles dir fs := fun hmem =>
      no_slash_in_list_profiles dir fs name hmem hslash
    simp [create_profile, hnm]

/-- C9 (witness): the amended path formula at a concrete traversal-style
name, and a concrete slashed name accepted by `create_profile`. -/
theorem profile_path_no_sanitization_witness :
    profile_path "/p".data "../q".data
      = "/p".data ++ '/' :: ("../q".data ++ ".profile".data) ∧
    (create_profile "/p".data [] "a/b".data).2 = 200 :=
  ⟨(profile_path_no_sanitization "/p".data "../q".data (by decide)
      (by decide) (by decide)).1,
   (profile_path_no_sanitization "/p".data "a/b".data (by decide)
      (by decide) (by decide)).2 [] (by decide)⟩

/-! ## String-order lemmas -/

theorem strLt_irrefl (s : Str) : strLt s s = false := by
  induction s with
  | nil => rfl
  | cons c cs ih => rw [strLt, if_neg (lt_irrefl c), if_neg (lt_irrefl c)]; exact ih

theorem strLt_ne {a b : Str} (h : strLt a b = true) : a ≠ b := by
  intro he; subst he; rw [strLt_irrefl] at h; exact Bool.false_ne_true h

theorem strLt_trans {a b c : Str} (h1 : strLt a b = true)
    (h2 : strLt b c = true) : strLt a c = true := by
  induction a generalizing b c with
  | nil =>
    cases b with
    | nil => exact absurd h1 (by rw [strLt_irrefl]; exact Bool.false_ne_true)
    | cons y ys =>
      cases c with
      | nil => simp [strLt] at h2
      | cons z zs => rfl
  | cons x xs ih =>
    cases b with
    | nil => simp [strLt] at h1
    | cons y ys =>
      cases c with
      | nil => simp [strLt] at h2
      | cons z zs =>
        rw [strLt] at h1 h2 ⊢
        by_cases hxy : x < y
        · by_cases hyz : y < z
          · rw [if_pos (lt_trans hxy hyz)]
          · rw [if_pos hxy] at h1
            rw [if_neg hyz] at h2
            by_cases hzy : z < y
            · rw [if_pos hzy] at h2; exact absurd h2 Bool.false_ne_true
            · have : y = z := le_antisymm (not_lt.1 hzy) (not_lt.1 hyz)
              subst this
              rw [if_pos hxy]
        · rw [if_neg hxy] at h1
          by_cases hyx : y < x
          · rw [if_pos hyx] at h1; exact absurd h1 Bool.false_ne_true
          · have hxyeq : x = y := le_antisymm (not_lt.1 hyx) (not_lt.1 hxy)
            subst hxyeq
            rw [if_neg hxy] at h1
            by_cases hyz : x < z
            · rw [if_pos hyz]
            · rw [if_neg hyz] at h2 ⊢
              by_cases hzy : z < x
              · rw [if_pos hzy] at h2; exact absurd h2 Bool.false_ne_true
              · rw [if_neg hzy] at h2 ⊢
                exact ih h1 h2

/-! ## C8: name-list normalization -/

theorem goodName_spec {k : Str} (h : goodName k = true) :
    k ≠ [] ∧ '\n' ∉ k ∧ '\r' ∉ k ∧ pstrip k = k := by
  unfold goodName at h
  simp at h
  exact ⟨h.1.1.1, h.1.1.2, h.1.2, h.2⟩

theorem unlAux_eq_self {s : Str} (h : '\r' ∉ s) : unlAux false s = s := by
  induction s with
  | nil => rfl
  | cons c rest ih =>
    have hc : c ≠ '\r' := fun he => h (he ▸ List.mem_cons_self c rest)
    have hrest : '\r' ∉ rest := fun hm => h (List.mem_cons.2 (Or.inr hm))
    rw [unlAux, if_neg hc]
    by_cases hn : c = '\n'
    · subst hn
      rw [if_pos rfl, if_neg (by simp), ih hrest]
    · rw [if_neg hn, ih hrest]

theorem cr_not_in_foldr_lines {names : List Str}
    (h : ∀ k ∈ names, '\r' ∉ k) :
    '\r' ∉ names.foldr (fun k acc => k ++ '\n' :: acc) [] := by
  induction names with
  | nil => simp
  | cons k rest ih =>
    rw [List.foldr_cons]
    intro hm
    rcases List.mem_append.1 hm with hm | hm
    · exact h k (List.mem_cons_self k rest) hm
    · rcases List.mem_cons.1 hm with hm | hm
      · exact absurd hm (by decide)
      · exact ih (fun x hx => h x (List.mem_cons.2 (Or.inr hx))) hm

theorem splitNl_append_cons {k : Str} (r : Str) (h : '\n' ∉ k) :
    splitNl (k ++ '\n' :: r) = k :: splitNl r := by
  induction k with
  | nil => rw [List.nil_append, splitNl, if_pos rfl]
  | cons c cs ih =>
    have hc : c ≠ '\n' := fun he => h (he ▸ List.mem_cons_self c cs)
    have hcs : '\n' ∉ cs := fun hm => h (List.mem_cons.2 (Or.inr hm))
    rw [List.cons_append, splitNl, if_neg hc, ih hcs]

theorem splitNl_foldr_lines (names : List Str)
    (h : ∀ k ∈ names, '\n' ∉ k) :
    splitNl (names.foldr (fun k acc => k ++ '\n' :: acc) []) = names ++ [[]] := by
  induction names with
  | nil => rfl
  | cons k rest ih =>
    rw [List.foldr_cons, splitNl_append_cons _ (h k (List.mem_cons_self k rest)),
        ih (fun a ha => h a (List.mem_cons.2 (Or.inr ha)))]
    rfl

theorem insertName_mem {a k : Str} {l : List Str} :
    a ∈ insertName k l → a = k ∨ a ∈ l := by
  induction l with
  | nil => intro h; simp [insertName] at h; exact Or.inl h
  | cons x rest ih =>
    intro h
    simp only [insertName] at h
    split_ifs at h with h1 h2
    · rw [List.mem_cons] at h
      exact h.imp id id
    · rw [List.mem_cons] at h
      rcases h with h | h
      · exact Or.inr (List.mem_cons.2 (Or.inl h))
      · rcases ih h with h' | h'
        · exact Or.inl h'
        · exact Or.inr (List.mem_cons.2 (Or.inr h'))
    · exact Or.inr h

theorem mem_dedupSort {a : Str} {l : List Str} :
    a ∈ dedupSort l → a ∈ l := by
  induction l with
  | nil => intro h; simp [dedupSort] at h
  | cons x rest ih =>
    intro h
    rcases insertName_mem h with h' | h'
    · simp [h']
    · simp [ih h']

theorem insertName_sorted {k : Str} {l : List Str}
    (h : l.Pairwise (fun a b => strLt a b = true)) :
    (insertName k l).Pairwise (fun a b => strLt a b = true) := by
  induction l with
  | nil => simp [insertName]
  | cons x rest ih =>
    rw [List.pairwise_cons] at h
    obtain ⟨hx, hrest⟩ := h
    simp only [insertName]
    split_ifs with h1 h2
    · rw [List.pairwise_cons]
      refine ⟨?_, List.pairwise_cons.2 ⟨hx, hrest⟩⟩
      intro b hb
      rw [List.mem_cons] at hb
      rcases hb with rfl | hb
      · exact h1
      · exact strLt_trans h1 (hx b hb)
    · rw [List.pairwise_cons]
      refine ⟨?_, ih hrest⟩
      intro b hb
      rcases insertName_mem hb with rfl | hb
      · exact h2
      · exact hx b hb
    · exact List.pairwise_cons.2 ⟨hx, hrest⟩

theorem dedupSort_sorted (l : List Str) :
    (dedupSort l).Pairwise (fun a b => strLt a b = true) := by
  induction l with
  | nil => simp [dedupSort]
  | cons x rest ih => exact insertName_sorted ih

/-- C8 (counterexample): the write-then-read law does not hold for every
list of key names: writing the singleton list containing the empty name
stores a blank line, which the reader strips and drops, so reading yields
the empty list; and a name with an interior carriage return reads back as
two names, because the text-mode read translates the carriage return into
a line feed. -/
theorem name_list_roundtrip_fails_on_empty_name :
    dedupSort [([] : Str)] = [[]] ∧
    read_profile "/p".data (write_profile "/p".data [] "n".data [[]])
      "n".data = [] ∧
    ([] : List Str) ≠ [([] : Str)] ∧
    read_profile "/p".data
      (write_profile "/p".data [] "n".data ["a\rb".data]) "n".data
      = ["a".data, "b".data] ∧
    ["a".data, "b".data] ≠ dedupSort ["a\rb".data] :=
  ⟨by decide, by decide, by decide, by decide, by decide⟩

/-- C8 (amended): for key names that survive the line format — nonempty,
newline-free, and unchanged by stripping — `write_profile` deduplicates
and sorts before overwriting wholesale, and a subsequent `read_profile`
returns exactly that sorted duplicate-free list. -/
theorem write_then_read_name_list (dir : Str) (fs : FS) (name : Str)
    (keys : List Str) (h : ∀ k ∈ keys, goodName k = true) :
    read_profile dir (write_profile dir fs name keys) name
      = dedupSort keys ∧
    (dedupSort keys).Pairwise (fun a b => strLt a b = true) := by
  have hsub : ∀ k ∈ dedupSort keys, goodName k = true :=
    fun k hk => h k (mem_dedupSort hk)
  refine ⟨?_, dedupSort_sorted keys⟩
  unfold read_profile write_profile
  have hr : fsRead
      (fsWrite (profile_path dir name)
        ((dedupSort keys).foldr (fun k acc => k ++ '\n' :: acc) []) fs)
      (profile_path dir name)
      = some ((dedupSort keys).foldr (fun k acc => k ++ '\n' :: acc) []) := by
    show dlookup _ (dinsert _ _ _) = _
    rw [dlookup_dinsert]
    simp
  rw [hr]
  dsimp only
  have hunl : unl ((dedupSort keys).foldr (fun k acc => k ++ '\n' :: acc) [])
      = (dedupSort keys).foldr (fun k acc => k ++ '\n' :: acc) [] := by
    unfold unl
    exact unlAux_eq_self (cr_not_in_foldr_lines
      (fun k hk => (goodName_spec (hsub k hk)).2.2.1))
  rw [hunl]
  rw [splitNl_foldr_lines _ (fun k hk => (goodName_spec (hsub k hk)).2.1)]
  rw [List.map_append, List.filter_append]
  have hmap : (dedupSort keys).map pstrip = dedupSort keys := by
    conv_rhs => rw [← List.map_id (dedupSort keys)]
    exact List.map_congr_left (fun k hk => (goodName_spec (hsub k hk)).2.2.2)
  rw [hmap]
  have hfil : (dedupSort keys).filter (fun l => !l.isEmpty) = dedupSort keys :=
    List.filter_eq_self.2 (fun k hk => by
      have := (goodName_spec (hsub k hk)).1
      simp [this])
  rw [hfil]
  simp [pstrip]

/-- C8 (witness): writing the names b, a, a then reading yields a, b. -/
theorem write_then_read_name_list_witness :
    read_profile "/p".data
      (write_profile "/p".data [] "p".data
        ["b".data, "a".data, "a".data])
      "p".data = ["a".data, "b".data] :=
  (write_then_read_name_list "/p".data [] "p".data
    ["b".data, "a".data, "a".data] (by decide)).1.trans (by decide)

/-! ## C10: duplicate keys, last successfully decoded line wins -/

theorem getLast?_cons_getD {α : Type} (a : α) (l : List α) :
    (a :: l).getLast? = some (l.getLast?.getD a) := by
  induction l generalizing a with
  | nil => rfl
  | cons b bs ih =>
    rw [List.getLast?_cons_cons, ih b]
    rfl

theorem foldl_parse_filterMap (lines : List Str) (acc : List (Str × Str)) :
    lines.foldl
      (fun acc line =>
        match parseLine line with
        | some kv => dinsert kv.1 kv.2 acc
        | none => acc) acc
      = (lines.filterMap parseLine).foldl
          (fun acc kv => dinsert kv.1 kv.2 acc) acc := by
  induction lines generalizing acc with
  | nil => rfl
  | cons line rest ih =>
    rw [List.foldl_cons, List.filterMap_cons]
    cases h : parseLine line with
    | none => exact ih acc
    | some kv => exact ih _

theorem dlookup_foldl_dinsert (pairs : List (Str × Str))
    (acc : List (Str × Str)) (k : Str) :
    dlookup k (pairs.foldl (fun a p => dinsert p.1 p.2 a) acc)
      = match (pairs.filter (fun p => p.1 == k)).getLast? with
        | some q => some q.2
        | none => dlookup k acc := by
  induction pairs generalizing acc with
  | nil => rfl
  | cons p rest ih =>
    rw [List.foldl_cons, ih, List.filter_cons]
    by_cases hpk : p.1 = k
    · simp only [hpk, beq_self_eq_true, if_true]
      rw [getLast?_cons_getD]
      cases hfl : (rest.filter (fun q => q.1 == k)).getLast? with
      | some q => simp [hfl]
      | none =>
        simp only [hfl, Option.getD_none]
        rw [dlookup_dinsert]
        simp [hpk]
    · have : (p.1 == k) = false := by simp [hpk]
      rw [this]
      simp only [Bool.false_eq_true, if_false]
      cases hfl : (rest.filter (fun q => q.1 == k)).getLast? with
      | some q => simp [hfl]
      | none =>
        simp only [hfl]
        rw [dlookup_dinsert, if_neg hpk]

/-- C10: in `decode_contents`, a key that appears on several lines is bound
to the value of the last successfully decoded line bearing it — earlier
bindings are silently overwritten, never reported as errors. -/
theorem decode_contents_last_wins (data : Str) (k : Str) :
    dlookup k (decode_contents data)
      = (((splitNl (pstrip data)).filterMap parseLine).filter
          (fun p => p.1 == k)).getLast?.map (fun p => p.2) := by
  unfold decode_contents
  rw [foldl_parse_filterMap, dlookup_foldl_dinsert]
  cases h : (((splitNl (pstrip data)).filterMap parseLine).filter
      (fun p => p.1 == k)).getLast? with
  | none => rfl
  | some q => rfl

/-! ## UTF-8 round trip -/

theorem charValidNat (c : Char) :
    c.toNat < 55296 ∨ (57344 ≤ c.toNat ∧ c.toNat < 1114112) := by
  have h := c.valid
  simp only [Char.toNat]
  rcases h with h | h
  · left; exact_mod_cast h
  · obtain ⟨h1, h2⟩ := h
    right
    exact ⟨by exact_mod_cast h1, by exact_mod_cast h2⟩

theorem toNat_ofNat_valid (n : Nat) (h : Nat.isValidChar n) :
    (Char.ofNat n).toNat = n := by
  simp only [Char.ofNat, h, dif_pos, Char.ofNatAux, Char.toNat]
  rfl

theorem utf8EncodeChar_lt (c : Char) : ∀ b ∈ utf8EncodeChar c, b < 256 := by
  rcases charValidNat c with hv | hv <;>
  · intro b hb
    simp only [utf8EncodeChar] at hb
    split_ifs at hb <;> simp at hb <;> omega

theorem utf8DecodeAux_encodeChar (c : Char) (rest : List Nat) (fuel : Nat) :
    utf8DecodeAux (fuel + 1) (utf8EncodeChar c ++ rest)
      = (utf8DecodeAux fuel rest).map (fun s => c :: s) := by
  have hv := charValidNat c
  by_cases h1 : c.toNat < 128
  · have he : utf8EncodeChar c = [c.toNat] := by simp [utf8EncodeChar, h1]
    rw [he, List.singleton_append]
    rw [utf8DecodeAux]
    rw [if_pos h1, Char.ofNat_toNat]
  · by_cases h2 : c.toNat < 2048
    · have he : utf8EncodeChar c
          = [192 + c.toNat / 64, 128 + c.toNat % 64] := by
        simp [utf8EncodeChar, h1, h2]
      rw [he]
      show utf8DecodeAux (fuel + 1)
          ((192 + c.toNat / 64) :: (128 + c.toNat % 64) :: rest) = _
      rw [utf8DecodeAux]
      rw [if_neg (by omega), if_neg (by omega), if_pos (by omega),
          if_pos (by simp)]
      simp only [List.headD_cons, List.tail_cons]
      rw [if_pos (by omega)]
      have harg : (192 + c.toNat / 64 - 192) * 64 + (128 + c.toNat % 64 - 128)
          = c.toNat := by omega
      rw [harg, Char.ofNat_toNat]
    · by_cases h3 : c.toNat < 65536
      · have he : utf8EncodeChar c
            = [224 + c.toNat / 4096, 128 + c.toNat / 64 % 64,
               128 + c.toNat % 64] := by
          simp [utf8EncodeChar, h1, h2, h3]
        rw [he]
        show utf8DecodeAux (fuel + 1) ((224 + c.toNat / 4096) ::
            (128 + c.toNat / 64 % 64) :: (128 + c.toNat % 64) :: rest) = _
        rw [utf8DecodeAux]
        rw [if_neg (by omega), if_neg (by omega),
            if_neg (by omega), if_pos (by omega), if_pos (by simp)]
        simp only [List.headD_cons, List.tail_cons]
        have harg : (224 + c.toNat / 4096 - 224) * 4096 +
            (128 + c.toNat / 64 % 64 - 128) * 64 + (128 + c.toNat % 64 - 128)
            = c.toNat := by omega
        rw [harg]
        rw [if_pos ⟨⟨by omega, by omega⟩, ⟨by omega, by omega⟩, by omega,
          by rcases hv with hv | hv
             · exact Or.inl (by omega)
             · exact Or.inr (by omega)⟩]
        rw [Char.ofNat_toNat]
      · have hlt : c.toNat < 1114112 := by rcases hv with hv | hv <;> omega
        have he : utf8EncodeChar c
            = [240 + c.toNat / 262144, 128 + c.toNat / 4096 % 64,
               128 + c.toNat / 64 % 64, 128 + c.toNat % 64] := by
          simp [utf8EncodeChar, h1, h2, h3]
        rw [he]
        show utf8DecodeAux (fuel + 1) ((240 + c.toNat / 262144) ::
            (128 + c.toNat / 4096 % 64) :: (128 + c.toNat / 64 % 64) ::
            (128 + c.toNat % 64) :: rest) = _
        rw [utf8DecodeAux]
        rw [if_neg (by omega), if_neg (by omega),
            if_neg (by omega), if_neg (by omega), if_pos (by omega),
            if_pos (by simp)]
        simp only [List.headD_cons, List.tail_cons]
        have harg : (240 + c.toNat / 262144 - 240) * 262144 +
            (128 + c.toNat / 4096 % 64 - 128) * 4096 +
            (128 + c.toNat / 64 % 64 - 128) * 64 +
            (128 + c.toNat % 64 - 128) = c.toNat := by omega
        rw [harg]
        rw [if_pos ⟨⟨by omega, by omega⟩, ⟨by omega, by omega⟩,
          ⟨by omega, by omega⟩, by omega, by omega⟩]
        rw [Char.ofNat_toNat]

theorem utf8EncodeChar_length_pos (c : Char) :
    1 ≤ (utf8EncodeChar c).length := by
  unfold utf8EncodeChar
  dsimp only
  split_ifs <;> simp

theorem utf8Encode_length (s : Str) : s.length ≤ (utf8Encode s).length := by
  induction s with
  | nil => simp [utf8Encode]
  | cons c cs ih =>
    show (c :: cs).length ≤ (utf8EncodeChar c ++ utf8Encode cs).length
    rw [List.length_append, List.length_cons]
    have := utf8EncodeChar_length_pos c
    omega

theorem utf8DecodeAux_encode (s : Str) :
    ∀ fuel, s.length ≤ fuel → utf8DecodeAux fuel (utf8Encode s) = some s := by
  induction s with
  | nil => intro fuel _; cases fuel <;> rfl
  | cons c cs ih =>
    intro fuel hf
    cases fuel with
    | zero => simp at hf
    | succ f =>
      show utf8DecodeAux (f + 1) (utf8EncodeChar c ++ utf8Encode cs) = _
      have hcs : cs.length ≤ f := by
        rw [List.length_cons] at hf; omega
      rw [utf8DecodeAux_encodeChar, ih f hcs]
      rfl

theorem utf8Decode_utf8Encode (s : Str) : utf8Decode (utf8Encode s) = some s := by
  unfold utf8Decode
  exact utf8DecodeAux_encode s _ (utf8Encode_length s)

theorem utf8Encode_lt (s : Str) : ∀ b ∈ utf8Encode s, b < 256 := by
  induction s with
  | nil => intro b hb; simp [utf8Encode] at hb
  | cons c cs ih =>
    intro b hb
    rcases List.mem_append.1 hb with h | h
    · exact utf8EncodeChar_lt c b h
    · exact ih b h

/-! ## Base64 round trip -/

theorem sixBit_facts : ∀ n, n < 64 →
    charSixBit (sixBitChar n) = some n ∧ sixBitChar n ≠ '=' ∧
    sixBitChar n ≠ '\n' ∧ sixBitChar n ≠ '#' ∧
    pySpace (sixBitChar n) = false := by decide

theorem b64decodeAux_encode :
    ∀ (bs : List Nat), (∀ b ∈ bs, b < 256) → ∀ acc : List Nat,
      b64decodeAux (b64encode bs) 0 0 0 acc = some (acc.reverse ++ bs)
  | [], _ => fun acc => by simp [b64encode, b64decodeAux]
  | [a], h => fun acc => by
    have ha : a < 256 := h a (by simp)
    obtain ⟨hc1, hn1, -, -, -⟩ := sixBit_facts (a / 4) (by omega)
    obtain ⟨hc2, hn2, -, -, -⟩ := sixBit_facts (a % 4 * 16) (by omega)
    show b64decodeAux
      [sixBitChar (a / 4), sixBitChar (a % 4 * 16), '=', '='] 0 0 0 acc = _
    rw [b64decodeAux, if_neg hn1, hc1]
    dsimp only
    rw [b64decodeAux, if_neg hn2, hc2]
    dsimp only
    have hb : a / 4 * 4 + a % 4 * 16 / 16 = a := by omega
    rw [hb]
    rw [b64decodeAux, if_pos rfl, if_pos (by omega), if_neg (by omega)]
    rw [b64decodeAux, if_pos rfl, if_pos (by omega), if_pos (by omega)]
    rw [List.reverse_cons]
  | [a, b], h => fun acc => by
    have ha : a < 256 := h a (by simp)
    have hb : b < 256 := h b (by simp)
    obtain ⟨hc1, hn1, -, -, -⟩ := sixBit_facts (a / 4) (by omega)
    obtain ⟨hc2, hn2, -, -, -⟩ := sixBit_facts (a % 4 * 16 + b / 16) (by omega)
    obtain ⟨hc3, hn3, -, -, -⟩ := sixBit_facts (b % 16 * 4) (by omega)
    show b64decodeAux
      [sixBitChar (a / 4), sixBitChar (a % 4 * 16 + b / 16),
       sixBitChar (b % 16 * 4), '='] 0 0 0 acc = _
    rw [b64decodeAux, if_neg hn1, hc1]
    dsimp only
    rw [b64decodeAux, if_neg hn2, hc2]
    dsimp only
    have hb1 : a / 4 * 4 + (a % 4 * 16 + b / 16) / 16 = a := by omega
    rw [hb1]
    rw [b64decodeAux, if_neg hn3, hc3]
    dsimp only
    have hb2 : (a % 4 * 16 + b / 16) % 16 * 16 + b % 16 * 4 / 4 = b := by
      omega
    rw [hb2]
    rw [b64decodeAux, if_pos rfl, if_pos (by omega), if_pos (by omega)]
    simp
  | a :: b :: c :: rest, h => fun acc => by
    have ha : a < 256 := h a (by simp)
    have hb : b < 256 := h b (by simp)
    have hc : c < 256 := h c (by simp)
    have hrest : ∀ x ∈ rest, x < 256 := fun x hx =>
      h x (by simp [hx])
    obtain ⟨hc1, hn1, -, -, -⟩ := sixBit_facts (a / 4) (by omega)
    obtain ⟨hc2, hn2, -, -, -⟩ := sixBit_facts (a % 4 * 16 + b / 16) (by omega)
    obtain ⟨hc3, hn3, -, -, -⟩ :=
      sixBit_facts (b % 16 * 4 + c / 64) (by omega)
    obtain ⟨hc4, hn4, -, -, -⟩ := sixBit_facts (c % 64) (by omega)
    show b64decodeAux
      (sixBitChar (a / 4) :: sixBitChar (a % 4 * 16 + b / 16) ::
       sixBitChar (b % 16 * 4 + c / 64) :: sixBitChar (c % 64) ::
       b64encode rest) 0 0 0 acc = _
    rw [b64decodeAux, if_neg hn1, hc1]
    dsimp only
    rw [b64decodeAux, if_neg hn2, hc2]
    dsimp only
    have hb1 : a / 4 * 4 + (a % 4 * 16 + b / 16) / 16 = a := by omega
    rw [hb1]
    rw [b64decodeAux, if_neg hn3, hc3]
    dsimp only
    have hb2 : (a % 4 * 16 + b / 16) % 16 * 16 +
        (b % 16 * 4 + c / 64) / 4 = b := by omega
    rw [hb2]
    rw [b64decodeAux, if_neg hn4, hc4]
    dsimp only
    have hb3 : (b % 16 * 4 + c / 64) % 4 * 64 + c % 64 = c := by omega
    rw [hb3]
    rw [b64decodeAux_encode rest hrest (c :: b :: a :: acc)]
    simp

theorem b64decode_b64encode (bs : List Nat) (h : ∀ b ∈ bs, b < 256) :
    b64decode (b64encode bs) = some bs := by
  unfold b64decode
  rw [b64decodeAux_encode bs h []]
  rfl

theorem b64encode_chars (bs : List Nat) (h : ∀ b ∈ bs, b < 256) :
    ∀ ch ∈ b64encode bs, ch = '=' ∨ ∃ n, n < 64 ∧ ch = sixBitChar n := by
  induction bs using b64encode.induct with
  | case1 a b c rest ih =>
    intro ch hch
    have ha : a < 256 := h a (by simp)
    have hb : b < 256 := h b (by simp)
    have hc : c < 256 := h c (by simp)
    rw [b64encode] at hch
    simp only [List.mem_cons] at hch
    rcases hch with rfl | rfl | rfl | rfl | hch
    · exact Or.inr ⟨a / 4, by omega, rfl⟩
    · exact Or.inr ⟨a % 4 * 16 + b / 16, by omega, rfl⟩
    · exact Or.inr ⟨b % 16 * 4 + c / 64, by omega, rfl⟩
    · exact Or.inr ⟨c % 64, by omega, rfl⟩
    · exact ih (fun x hx => h x (by simp [hx])) ch hch
  | case2 a b =>
    intro ch hch
    have ha : a < 256 := h a (by simp)
    have hb : b < 256 := h b (by simp)
    rw [b64encode] at hch
    simp only [List.mem_cons] at hch
    rcases hch with rfl | rfl | rfl | rfl | hch
    · exact Or.inr ⟨a / 4, by omega, rfl⟩
    · exact Or.inr ⟨a % 4 * 16 + b / 16, by omega, rfl⟩
    · exact Or.inr ⟨b % 16 * 4, by omega, rfl⟩
    · exact Or.inl rfl
    · simp at hch
  | case3 a =>
    intro ch hch
    have ha : a < 256 := h a (by simp)
    rw [b64encode] at hch
    simp only [List.mem_cons] at hch
    rcases hch with rfl | rfl | rfl | rfl | hch
    · exact Or.inr ⟨a / 4, by omega, rfl⟩
    · exact Or.inr ⟨a % 4 * 16, by omega, rfl⟩
    · exact Or.inl rfl
    · exact Or.inl rfl
    · simp at hch
  | case4 => intro ch hch; simp [b64encode] at hch

/-! ## Line-format lemmas for the contents codec -/

theorem dropWhile_eq_self_of_head {s : Str}
    (h : ∀ c, s.head? = some c → pySpace c = false) :
    s.dropWhile pySpace = s := by
  cases s with
  | nil => rfl
  | cons a l =>
    rw [List.dropWhile_cons, h a rfl]
    simp

theorem pstrip_eq_self {s : Str}
    (h1 : ∀ c, s.head? = some c → pySpace c = false)
    (h2 : ∀ c, s.getLast? = some c → pySpace c = false) :
    pstrip s = s := by
  unfold pstrip
  have h2' : ∀ c, s.reverse.head? = some c → pySpace c = false := by
    intro c hc
    rw [List.head?_reverse] at hc
    exact h2 c hc
  rw [dropWhile_eq_self_of_head h1, dropWhile_eq_self_of_head h2',
      List.reverse_reverse]

theorem pstrip_append_newline {s : Str} (hne : s ≠ [])
    (h1 : ∀ c, s.head? = some c → pySpace c = false)
    (h2 : ∀ c, s.getLast? = some c → pySpace c = false) :
    pstrip (s ++ ['\n']) = s := by
  unfold pstrip
  have hh : ∀ c, (s ++ ['\n']).head? = some c → pySpace c = false := by
    intro c hc
    cases s with
    | nil => exact absurd rfl hne
    | cons a t =>
      rw [List.cons_append] at hc
      exact h1 c hc
  rw [dropWhile_eq_self_of_head hh, List.reverse_append]
  rw [show (['\n'] : Str).reverse ++ s.reverse = '\n' :: s.reverse from rfl]
  rw [List.dropWhile_cons, if_pos (by decide)]
  have h2' : ∀ c, s.reverse.head? = some c → pySpace c = false := by
    intro c hc
    rw [List.head?_reverse] at hc
    exact h2 c hc
  rw [dropWhile_eq_self_of_head h2', List.reverse_reverse]

theorem splitNl_single {l : Str} (h : '\n' ∉ l) : splitNl l = [l] := by
  induction l with
  | nil => rfl
  | cons c cs ih =>
    have hc : c ≠ '\n' := fun he => h (he ▸ List.mem_cons_self c cs)
    have hcs : '\n' ∉ cs := fun hm => h (List.mem_cons.2 (Or.inr hm))
    rw [splitNl, if_neg hc, ih hcs]

theorem splitNl_joinNl (lines : List Str)
    (hnl : ∀ l ∈ lines, '\n' ∉ l) (h0 : lines ≠ []) :
    splitNl (joinNl lines) = lines := by
  induction lines with
  | nil => exact absurd rfl h0
  | cons l ls ih =>
    cases ls with
    | nil => exact splitNl_single (hnl l (List.mem_cons_self l []))
    | cons l2 ls2 =>
      rw [show joinNl (l :: l2 :: ls2) = l ++ '\n' :: joinNl (l2 :: ls2)
          from rfl]
      rw [splitNl_append_cons _ (hnl l (List.mem_cons_self l _)),
          ih (fun x hx => hnl x (List.mem_cons.2 (Or.inr hx))) (by simp)]

theorem joinNl_ne_nil {lines : List Str} (h0 : lines ≠ [])
    (h1 : ∀ l ∈ lines, l ≠ []) : joinNl lines ≠ [] := by
  cases lines with
  | nil => exact absurd rfl h0
  | cons l ls =>
    cases ls with
    | nil => exact h1 l (List.mem_cons_self l [])
    | cons l2 ls2 =>
      show l ++ '\n' :: joinNl (l2 :: ls2) ≠ []
      simp

theorem joinNl_head? {l : Str} (ls : List Str) (h : l ≠ []) :
    (joinNl (l :: ls)).head? = l.head? := by
  cases ls with
  | nil => rfl
  | cons l2 ls2 =>
    show (l ++ '\n' :: joinNl (l2 :: ls2)).head? = l.head?
    cases l with
    | nil => exact absurd rfl h
    | cons a t => rfl

theorem getLast?_cons_of_ne_nil {α : Type} {a : α} {l : List α}
    (h : l ≠ []) : (a :: l).getLast? = l.getLast? := by
  cases l with
  | nil => exact absurd rfl h
  | cons b bs => exact List.getLast?_cons_cons

theorem joinNl_getLast?_ex {lines : List Str}
    (h1 : ∀ l ∈ lines, l ≠ []) :
    ∀ c, (joinNl lines).getLast? = some c →
      ∃ l ∈ lines, l.getLast? = some c := by
  induction lines with
  | nil => intro c hc; simp [joinNl] at hc
  | cons l ls ih =>
    intro c hc
    cases ls with
    | nil => exact ⟨l, List.mem_cons_self l [], hc⟩
    | cons l2 ls2 =>
      rw [show joinNl (l :: l2 :: ls2) = l ++ '\n' :: joinNl (l2 :: ls2)
          from rfl] at hc
      rw [List.getLast?_append_of_ne_nil _ (by simp)] at hc
      rw [getLast?_cons_of_ne_nil
        (joinNl_ne_nil (by simp)
          (fun x hx => h1 x (List.mem_cons.2 (Or.inr hx))))] at hc
      obtain ⟨l', hl', hc'⟩ :=
        ih (fun x hx => h1 x (List.mem_cons.2 (Or.inr hx))) c hc
      exact ⟨l', List.mem_cons.2 (Or.inr hl'), hc'⟩

theorem splitEq1_append {k : Str} (v : Str) (h : '=' ∉ k) :
    splitEq1 (k ++ '=' :: v) = some (k, v) := by
  induction k with
  | nil => rw [List.nil_append, splitEq1, if_pos rfl]
  | cons c cs ih =>
    have hc : c ≠ '=' := fun he => h (he ▸ List.mem_cons_self c cs)
    have hcs : '=' ∉ cs := fun hm => h (List.mem_cons.2 (Or.inr hm))
    rw [List.cons_append, splitEq1, if_neg hc, ih hcs]
    rfl

theorem safeKey_spec {k : Str} (h : safeKey k = true) :
    '=' ∉ k ∧ '\n' ∉ k ∧
    ∀ c t, k = c :: t → c ≠ '#' ∧ pySpace c = false := by
  cases k with
  | nil =>
    refine ⟨by simp, by simp, ?_⟩
    intro c t hct
    simp at hct
  | cons a t =>
    unfold safeKey at h
    simp at h
    obtain ⟨⟨h1, h2⟩, h3, h4⟩ := h
    refine ⟨?_, ?_, ?_⟩
    · intro hm
      rcases List.mem_cons.1 hm with hm | hm
      · exact h1.1 hm
      · exact h1.2 hm
    · intro hm
      rcases List.mem_cons.1 hm with hm | hm
      · exact h2.1 hm
      · exact h2.2 hm
    · intro c t' hct
      injection hct with hc ht
      subst hc
      exact ⟨h3, h4⟩

theorem b64_char_not_space {bs : List Nat} (hb : ∀ b ∈ bs, b < 256) :
    ∀ ch ∈ b64encode bs, pySpace ch = false ∧ ch ≠ '\n' := by
  intro ch hch
  rcases b64encode_chars bs hb ch hch with rfl | ⟨n, hn, rfl⟩
  · exact ⟨by decide, by decide⟩
  · obtain ⟨-, -, hnl, -, hsp⟩ := sixBit_facts n hn
    exact ⟨hsp, hnl⟩

theorem line_getLast_not_space (k v : Str) :
    ∀ c, (k ++ '=' :: b64encode (utf8Encode v)).getLast? = some c →
      pySpace c = false := by
  intro c hc
  rw [List.getLast?_append_of_ne_nil _ (by simp)] at hc
  cases henc : b64encode (utf8Encode v) with
  | nil =>
    rw [henc] at hc
    have : c = '=' := by
      simp [List.getLast?] at hc
      exact hc.symm
    subst this
    decide
  | cons e es =>
    rw [henc, getLast?_cons_of_ne_nil (by simp)] at hc
    have hmem : c ∈ b64encode (utf8Encode v) := by
      rw [henc]
      exact List.mem_of_mem_getLast? hc
    exact (b64_char_not_space (utf8Encode_lt v) c hmem).1

theorem parseLine_line (k v : Str) (hk : safeKey k = true) :
    parseLine (k ++ '=' :: b64encode (utf8Encode v)) = some (k, v) := by
  obtain ⟨hkeq, hknl, hkhead⟩ := safeKey_spec hk
  have hhead : ∀ c, (k ++ '=' :: b64encode (utf8Encode v)).head? = some c →
      pySpace c = false ∧ c ≠ '#' := by
    intro c hc
    cases k with
    | nil =>
      rw [List.nil_append] at hc
      have : c = '=' := by simpa using hc.symm
      subst this
      exact ⟨by decide, by decide⟩
    | cons a t =>
      rw [List.cons_append] at hc
      have : a = c := by simpa using hc
      subst this
      obtain ⟨hh, hsp⟩ := hkhead a t rfl
      exact ⟨hsp, hh⟩
  have hsp : pstrip (k ++ '=' :: b64encode (utf8Encode v))
      = k ++ '=' :: b64encode (utf8Encode v) :=
    pstrip_eq_self (fun c hc => (hhead c hc).1) (line_getLast_not_space k v)
  unfold parseLine
  rw [hsp]
  rw [if_neg (by simp)]
  rw [if_neg ?hhash]
  case hhash =>
    intro hcon
    exact (hhead '#' hcon).2 rfl
  rw [splitEq1_append _ hkeq]
  dsimp only
  rw [b64decode_b64encode (utf8Encode v) (utf8Encode_lt v)]
  dsimp only
  rw [utf8Decode_utf8Encode]

/-! ## C1: the encode/decode round trip -/

theorem insertPair_of_lt {p : Str × Str} {l : List (Str × Str)}
    (h : ∀ q ∈ l, strLt p.1 q.1 = true) : insertPair p l = p :: l := by
  cases l with
  | nil => rfl
  | cons q rest =>
    have hle : pairLe p q = true := by
      unfold pairLe
      rw [h q (List.mem_cons_self q rest)]
      simp
    rw [insertPair, if_pos hle]

theorem sortPairs_sorted_id {M : List (Str × Str)}
    (h : M.Pairwise (fun p q => strLt p.1 q.1 = true)) : sortPairs M = M := by
  induction M with
  | nil => rfl
  | cons p rest ih =>
    rw [List.pairwise_cons] at h
    rw [sortPairs, ih h.2, insertPair_of_lt h.1]

theorem dinsert_append (k v : Str) {l : List (Str × Str)}
    (h : k ∉ l.map Prod.fst) : dinsert k v l = l ++ [(k, v)] := by
  induction l with
  | nil => rfl
  | cons q rest ih =>
    rw [List.map_cons] at h
    have hq : q.1 ≠ k := fun he => h (List.mem_cons.2 (Or.inl he.symm))
    have h2 : k ∉ rest.map Prod.fst :=
      fun hm => h (List.mem_cons.2 (Or.inr hm))
    rw [dinsert, if_neg hq, ih h2]
    rfl

theorem newline_not_in_line (k v : Str) (hk : safeKey k = true) :
    '\n' ∉ k ++ '=' :: b64encode (utf8Encode v) := by
  intro hm
  rcases List.mem_append.1 hm with hm | hm
  · exact (safeKey_spec hk).2.1 hm
  · rcases List.mem_cons.1 hm with hm | hm
    · exact absurd hm (by decide)
    · exact (b64_char_not_space (utf8Encode_lt v) '\n' hm).2 rfl

theorem line_head_not_space (k v : Str) (hk : safeKey k = true) :
    ∀ c, (k ++ '=' :: b64encode (utf8Encode v)).head? = some c →
      pySpace c = false := by
  intro c hc
  obtain ⟨-, -, hkhead⟩ := safeKey_spec hk
  cases k with
  | nil =>
    rw [List.nil_append] at hc
    have : c = '=' := by simpa using hc.symm
    subst this
    decide
  | cons a t =>
    rw [List.cons_append] at hc
    have : a = c := by simpa using hc
    subst this
    exact (hkhead a t rfl).2

theorem blob_decode (lines : List Str) (h0 : lines ≠ [])
    (hne : ∀ l ∈ lines, l ≠ [])
    (hnl : ∀ l ∈ lines, '\n' ∉ l)
    (hh : ∀ l ∈ lines, ∀ c, l.head? = some c → pySpace c = false)
    (hl : ∀ l ∈ lines, ∀ c, l.getLast? = some c → pySpace c = false) :
    splitNl (pstrip (joinNl lines ++ ['\n'])) = lines := by
  have hhead : ∀ c, (joinNl lines).head? = some c → pySpace c = false := by
    intro c hc
    cases lines with
    | nil => exact absurd rfl h0
    | cons l ls =>
      rw [joinNl_head? ls (hne l (List.mem_cons_self l ls))] at hc
      exact hh l (List.mem_cons_self l ls) c hc
  have hlast : ∀ c, (joinNl lines).getLast? = some c → pySpace c = false := by
    intro c hc
    obtain ⟨l, hlm, hc'⟩ := joinNl_getLast?_ex hne c hc
    exact hl l hlm c hc'
  rw [pstrip_append_newline (joinNl_ne_nil h0 hne) hhead hlast]
  exact splitNl_joinNl lines hnl h0

theorem foldl_decode_lines (M : List (Str × Str)) (acc : List (Str × Str))
    (hk : ∀ p ∈ M, safeKey p.1 = true)
    (hnd : M.Pairwise (fun p q => p.1 ≠ q.1))
    (hdisj : ∀ p ∈ M, p.1 ∉ acc.map Prod.fst) :
    (M.map (fun p => p.1 ++ '=' :: b64encode (utf8Encode p.2))).foldl
      (fun acc line =>
        match parseLine line with
        | some kv => dinsert kv.1 kv.2 acc
        | none => acc) acc = acc ++ M := by
  induction M generalizing acc with
  | nil => simp
  | cons p rest ih =>
    rw [List.map_cons, List.foldl_cons]
    show (rest.map _).foldl _
        (match parseLine (p.1 ++ '=' :: b64encode (utf8Encode p.2)) with
         | some kv => dinsert kv.1 kv.2 acc
         | none => acc) = _
    rw [parseLine_line p.1 p.2 (hk p (List.mem_cons_self p rest))]
    dsimp only
    rw [dinsert_append p.1 p.2 (hdisj p (List.mem_cons_self p rest))]
    rw [List.pairwise_cons] at hnd
    rw [ih (acc ++ [(p.1, p.2)])
        (fun q hq => hk q (List.mem_cons.2 (Or.inr hq)))
        hnd.2
        ?hdisj2]
    · simp
    case hdisj2 =>
      intro q hq hqmem
      rw [List.map_append, List.mem_append] at hqmem
      rcases hqmem with hm | hm
      · exact hdisj q (List.mem_cons.2 (Or.inr hq)) hm
      · simp at hm
        exact hnd.1 q hq hm.symm

/-- C1 (counterexample): the round trip fails for key names that collide
with the line format: a key beginning with the comment marker is encoded
verbatim, and on decoding its whole line is skipped as a comment, so the
mapping comes back empty instead of intact. -/
theorem roundtrip_fails_on_hash_key :
    decode_contents (encode_contents [("#x".data, "v".data)]) = [] ∧
    decode_contents (encode_contents [("#x".data, "v".data)])
      ≠ [("#x".data, "v".data)] :=
  ⟨by decide, by decide⟩

/-- C1 (amended): for every mapping, presented as its key-sorted
association list, whose key names survive the line format — containing no
equals sign and no newline, and not starting with the comment marker or
whitespace — decoding the encoded contents returns exactly the mapping;
values may be arbitrary strings, since they travel base64-encoded. -/
theorem decode_encode_roundtrip (M : List (Str × Str))
    (hsorted : M.Pairwise (fun p q => strLt p.1 q.1 = true))
    (hkeys : ∀ p ∈ M, safeKey p.1 = true) :
    decode_contents (encode_contents M) = M := by
  rcases M with _ | ⟨p0, rest0⟩
  · rfl
  · have hmap : ∀ l ∈ (p0 :: rest0).map
        (fun p => p.1 ++ '=' :: b64encode (utf8Encode p.2)),
        ∃ p, p ∈ p0 :: rest0 ∧
          l = p.1 ++ '=' :: b64encode (utf8Encode p.2) := by
      intro l hl
      obtain ⟨p, hp, he⟩ := List.mem_map.1 hl
      exact ⟨p, hp, he.symm⟩
    have hence : encode_contents (p0 :: rest0)
        = joinNl ((p0 :: rest0).map
            (fun p => p.1 ++ '=' :: b64encode (utf8Encode p.2))) ++ ['\n'] := by
      unfold encode_contents
      rw [sortPairs_sorted_id hsorted]
      rfl
    rw [hence]
    unfold decode_contents
    rw [blob_decode _ (by simp) ?hne ?hnl ?hh ?hl]
    case hne =>
      intro l hl
      obtain ⟨p, -, rfl⟩ := hmap l hl
      simp
    case hnl =>
      intro l hl
      obtain ⟨p, hp, rfl⟩ := hmap l hl
      exact newline_not_in_line p.1 p.2 (hkeys p hp)
    case hh =>
      intro l hl
      obtain ⟨p, hp, rfl⟩ := hmap l hl
      exact line_head_not_space p.1 p.2 (hkeys p hp)
    case hl =>
      intro l hl
      obtain ⟨p, -, rfl⟩ := hmap l hl
      exact line_getLast_not_space p.1 p.2
    rw [foldl_decode_lines (p0 :: rest0) [] hkeys
        (hsorted.imp (fun h => strLt_ne h)) (by simp)]
    rfl

/-- C1 (witness): a concrete two-key mapping with an empty and a
non-ASCII value survives the round trip. -/
theorem decode_encode_roundtrip_witness :
    decode_contents (encode_contents
      [("A".data, "hello wörld".data), ("B_KEY".data, "".data)])
      = [("A".data, "hello wörld".data), ("B_KEY".data, "".data)] :=
  decode_encode_roundtrip
    [("A".data, "hello wörld".data), ("B_KEY".data, "".data)]
    (by decide) (by decide)

end AK
